import Mathlib

/-!
Verification of the registration engine of nipy
(`nipy/neurospin/registration/histogram_registration.py`).

Arrays are modelled shallowly: a volume passed to `clamp` is a flat list of
rational intensities together with a flag telling whether its dtype is an
integer type (`issubclass(x.dtype.type, np.integer)`); the output array of
dtype `short` is a list of integers, with the 16-bit cast made explicit.
Python float arithmetic is modelled by exact rational arithmetic; `np.round`
is modelled as round-half-to-even.  Fallible NumPy operations (the
`ValueError` raises, the broadcast failure of an array assignment, the
`ZeroDivisionError` of `dmax/d`) return an error value.  Masks are modelled
as boolean arrays of the same length as the data.
-/

namespace HistReg

/-- Cast of an integer value into a cell of a `short` (signed 16-bit) NumPy
array, with wrap-around. -/
def castShort (z : ℤ) : ℤ := (z + 32768) % 65536 - 32768

/-- Python float-to-int truncation toward zero, as in `int(d)` and in the
C cast performed when a float array is assigned into an integer array. -/
def truncToInt (q : ℚ) : ℤ := if q < 0 then -⌊-q⌋ else ⌊q⌋

/-- Rounding as performed by `np.round`: round half to even. -/
def npRound (q : ℚ) : ℤ :=
  if q < (⌊q⌋ : ℚ) + 1/2 then ⌊q⌋
  else if (⌊q⌋ : ℚ) + 1/2 < q then ⌊q⌋ + 1
  else if 2 ∣ ⌊q⌋ then ⌊q⌋ else ⌊q⌋ + 1

/-- Value of `x.min()` on a flat array. -/
def listMin (x : List ℚ) : ℚ := x.foldl min (x.headD 0)

/-- Value of `x.max()` on a flat array. -/
def listMax (x : List ℚ) : ℚ := x.foldl max (x.headD 0)

/-- Errors raised by the clamping code: `ValueError('Excess number of bins')`,
`ValueError('Too large a bin size')`, `ZeroDivisionError` from `dmax/d`,
a broadcast failure of an array assignment, and the reduction error of
`x.min()` on an empty array. -/
inductive NpError
  | excessBins
  | tooLargeBin
  | zeroDivision
  | broadcast
  | emptyArray
deriving DecidableEq

instance : DecidableEq (Except NpError (List ℤ × ℤ)) := fun a b =>
  match a, b with
  | .error a, .error b =>
    if h : a = b then isTrue (by rw [h]) else isFalse (by simp [h])
  | .ok a, .ok b =>
    if h : a = b then isTrue (by rw [h]) else isFalse (by simp [h])
  | .error _, .ok _ => isFalse (by simp)
  | .ok _, .error _ => isFalse (by simp)

/-- Embedding of `_clamp(x, y, bins)` from
`histogram_registration.py` lines 318-343.  `x` is the source array passed by
the caller (`clamp` passes the *full* array here even in the masked case),
`intDtype` is `issubclass(x.dtype.type, np.integer)`, and the result is the
pair `(y, bins)`: the values assigned into `y` by `y[:] = ...` and the
possibly shrunk bin count.  `dmaxmax` comes from `y.dtype.itemsize == 2`
(`_CLAMP_DTYPE = 'short'`).  In the branch for non-integral dtypes or large
dynamics, `a = dmax/d` raises `ZeroDivisionError` when `d == 0` because `d`
is a Python float. -/
def _clamp (x : List ℚ) (intDtype : Bool) (bins : ℤ) :
    Except NpError (List ℤ × ℤ) :=
  let dmaxmax : ℤ := 2 ^ (8 * 2 - 1) - 1
  let dmax : ℤ := bins - 1
  if dmaxmax < dmax then .error .excessBins
  else if x = [] then .error .emptyArray
  else
    let xmin := listMin x
    let xmax := listMax x
    let d : ℚ := xmax - xmin
    if intDtype = true ∧ d ≤ (dmax : ℚ) then
      .ok (x.map fun v => castShort (truncToInt (v - xmin)), truncToInt d + 1)
    else if d = 0 then .error .zeroDivision
    else .ok (x.map fun v => castShort (npRound ((dmax : ℚ) / d * (v - xmin))), bins)

/-- The assignment `y[mask] = ym`: values of `vs` go in order to the `true`
positions of `m`, every other position keeps the initialization `-1`. -/
def scatter : List Bool → List ℤ → List ℤ
  | [], _ => []
  | true :: m, v :: vs => v :: scatter m vs
  | true :: m, [] => -1 :: scatter m []
  | false :: m, vs => -1 :: scatter m vs

/-- Embedding of `clamp(x, bins, mask)` from
`histogram_registration.py` lines 346-381.  Note that the source passes the
full array `x` (not `xm = x[mask]`) to `_clamp`, so in the masked case the
values `x - xmin` of the whole array are broadcast into `ym = y[mask]`,
which has `count(mask)` elements: the assignment succeeds only when the
value array has length `count(mask)` (an all-true mask) or length 1, and
otherwise raises a broadcast `ValueError`. -/
def clamp (x : List ℚ) (intDtype : Bool) (bins : ℤ) (mask : Option (List Bool)) :
    Except NpError (List ℤ × ℤ) :=
  if (32767 : ℤ) < bins then .error .tooLargeBin
  else
    match mask with
    | none => _clamp x intDtype bins
    | some m =>
      if m.length ≠ x.length then .error .broadcast
      else
        match _clamp x intDtype bins with
        | .error e => .error e
        | .ok (vals, bins2) =>
          let k := m.count true
          if vals.length = k then .ok (scatter m vals, bins2)
          else if vals.length = 1 then
            .ok (scatter m (List.replicate k (vals.headD 0)), bins2)
          else .error .broadcast

/-- The index set `range(0, d, s)` retained along one axis by the strided
view `data[::s]` of an axis of extent `d`. -/
def sampleIdx (d s : ℕ) : Finset ℕ := (Finset.range d).filter (fun i => i % s = 0)

/-- The voxel index set of the strided view `data[::s0, ::s1, ::s2]`. -/
def stridedIdx (dims sp : ℕ × ℕ × ℕ) : Finset (ℕ × ℕ × ℕ) :=
  sampleIdx dims.1 sp.1 ×ˢ sampleIdx dims.2.1 sp.2.1 ×ˢ sampleIdx dims.2.2 sp.2.2

/-- `(subdata >= 0).sum()`: the number of non-sentinel voxels of the strided
view of `data` (a 3D array modelled as a function on voxel indices). -/
def countStrided (dims sp : ℕ × ℕ × ℕ) (data : ℕ → ℕ → ℕ → ℤ) : ℕ :=
  ((stridedIdx dims sp).filter fun p => 0 ≤ data p.1 p.2.1 p.2.2).card

/-- The array `ddims = dims/spacing` of `ideal_spacing` (line 410): NumPy
integer division of the *full* extents by the current spacing, i.e. floor
division, not the strided view's actual sample count. -/
def ddims (dims sp : ℕ × ℕ × ℕ) : ℕ × ℕ × ℕ :=
  (dims.1 / sp.1, dims.2.1 / sp.2.1, dims.2.2 / sp.2.2)

/-- The `if/elif/else` choice of the axis to subsample next
(`histogram_registration.py` lines 411-416). -/
def chooseDir (dd : ℕ × ℕ × ℕ) : Fin 3 :=
  if dd.1 ≥ dd.2.1 ∧ dd.1 ≥ dd.2.2 then 0
  else if dd.2.1 > dd.1 ∧ dd.2.1 ≥ dd.2.2 then 1
  else 2

/-- The statement `spacing[dir] += 1` (line 417). -/
def bumpSpacing (sp : ℕ × ℕ × ℕ) (j : Fin 3) : ℕ × ℕ × ℕ :=
  if j = 0 then (sp.1 + 1, sp.2.1, sp.2.2)
  else if j = 1 then (sp.1, sp.2.1 + 1, sp.2.2)
  else (sp.1, sp.2.1, sp.2.2 + 1)

/-- One iteration of the tuning loop body of `ideal_spacing`. -/
def stepSpacing (dims sp : ℕ × ℕ × ℕ) : ℕ × ℕ × ℕ :=
  bumpSpacing sp (chooseDir (ddims dims sp))

/-- The `while actual_npoints > npoints` loop of `ideal_spacing`
(lines 407-419) with explicit fuel; `none` means the loop has not exited
within `fuel` iterations. -/
def ideal_spacing_aux (dims : ℕ × ℕ × ℕ) (data : ℕ → ℕ → ℕ → ℤ) (npoints : ℤ) :
    ℕ → ℕ × ℕ × ℕ → Option (ℕ × ℕ × ℕ)
  | 0, _ => none
  | fuel + 1, sp =>
    if npoints < (countStrided dims sp data : ℤ) then
      ideal_spacing_aux dims data npoints fuel (stepSpacing dims sp)
    else some sp

/-- Embedding of `ideal_spacing(data, npoints)` (lines 384-421), starting
from `spacing = [1,1,1]`, with enough fuel for every terminating run (it is
proved below that `dims.1 + dims.2.1 + dims.2.2 + 1` iterations always
suffice when `npoints ≥ 1`). -/
def ideal_spacing (dims : ℕ × ℕ × ℕ) (data : ℕ → ℕ → ℕ → ℤ) (npoints : ℤ) :
    Option (ℕ × ℕ × ℕ) :=
  ideal_spacing_aux dims data npoints (dims.1 + dims.2.1 + dims.2.2 + 1) (1, 1, 1)

/-- The sequence of axes chosen by the successive iterations of the tuning
loop of `ideal_spacing` (same loop as `ideal_spacing_aux`, recording
`dir`). -/
def ideal_spacing_trace_aux (dims : ℕ × ℕ × ℕ) (data : ℕ → ℕ → ℕ → ℤ)
    (npoints : ℤ) : ℕ → ℕ × ℕ × ℕ → List (Fin 3)
  | 0, _ => []
  | fuel + 1, sp =>
    if npoints < (countStrided dims sp data : ℤ) then
      chooseDir (ddims dims sp) ::
        ideal_spacing_trace_aux dims data npoints fuel (stepSpacing dims sp)
    else []

/-- Trace of `ideal_spacing` started from `spacing = [1,1,1]`. -/
def ideal_spacing_trace (dims : ℕ × ℕ × ℕ) (data : ℕ → ℕ → ℕ → ℤ)
    (npoints : ℤ) : List (Fin 3) :=
  ideal_spacing_trace_aux dims data npoints (dims.1 + dims.2.1 + dims.2.2 + 1) (1, 1, 1)

/-- Component access for modelled 3-vectors. -/
def get3 (v : ℕ × ℕ × ℕ) (j : Fin 3) : ℕ :=
  if j = 0 then v.1 else if j = 1 then v.2.1 else v.2.2

/-- The quantity named by the spec for the subsampling rule: the *current
strided extent* of axis `j`, i.e. the number of samples axis `j` keeps in
the strided view (`ceil(extent/stride)`). -/
def stridedExtent (dims sp : ℕ × ℕ × ℕ) (j : Fin 3) : ℕ :=
  (sampleIdx (get3 dims j) (get3 sp j)).card

/-- Selection rule worded by claim C5: axis `j` has the largest value of `v`
and ties are broken in favor of the lowest axis index. -/
def isLeastArgmax3 (v : Fin 3 → ℕ) (j : Fin 3) : Prop :=
  (∀ i, v i ≤ v j) ∧ ∀ i, v j ≤ v i → j ≤ i

instance (v : Fin 3 → ℕ) (j : Fin 3) : Decidable (isLeastArgmax3 v j) := by
  unfold isLeastArgmax3; infer_instance

/-- The module-level dictionary `interp_methods` (line 39), as an association
list.  Python 2 guarantees that `keys()` and `values()` enumerate a dict in
one consistent order, which is all `_get_interp` relies on. -/
def interp_methods : List (String × ℤ) := [("pv", 0), ("tri", 1), ("rand", -1)]

/-- Embedding of `HistogramRegistration._set_interp` (lines 106-107): the
stored code `interp_methods[method]` (`none` models the `KeyError` of a
lookup of an unknown name). -/
def _set_interp (method : String) : Option ℤ := interp_methods.lookup method

/-- Embedding of `HistogramRegistration._get_interp` (lines 103-104):
`interp_methods.keys()[interp_methods.values().index(self._interp)]`, i.e.
the key of the first entry whose value is the stored code. -/
def _get_interp (code : ℤ) : Option String :=
  (interp_methods.find? fun p => p.2 == code).map fun p => p.1

/-- Coordinate vectors are rational triples; voxel indices integer triples. -/
abbrev QV3 := ℚ × ℚ × ℚ

abbrev ZV3 := ℤ × ℤ × ℤ

/-- A free transform: a parameter vector plus a coordinate map depending on
it (the external `Transform` object with its `param` attribute and `apply`
method). -/
structure Transform where
  param : List ℚ
  applyF : List ℚ → QV3 → QV3

/-- Modelled from the spec: the `ChainTransform` class (module
`chain_transform`, not under `src/`).  Per spec section 4.3 it wraps a free
transform with two fixed conversions so that `apply(v) = post(T(pre(v)))`,
and exposes get/set of the free transform's parameter vector only. -/
structure ChainTransform where
  T : Transform
  pre : QV3 → QV3
  post : QV3 → QV3

def ChainTransform.apply (c : ChainTransform) (v : QV3) : QV3 :=
  c.post (c.T.applyF c.T.param (c.pre v))

def ChainTransform.param (c : ChainTransform) : List ℚ := c.T.param

def ChainTransform.setParam (c : ChainTransform) (p : List ℚ) : ChainTransform :=
  { c with T := { c.T with param := p } }

/-- A joint histogram: accumulator value for each (from-bin, to-bin) pair. -/
abbrev JHist := ℤ → ℤ → ℚ

def zeroHist : JHist := fun _ _ => 0

/-- Add weight `w` to cell `(bf, bt)` of the joint histogram. -/
def bumpHist (h : JHist) (bf bt : ℤ) (w : ℚ) : JHist :=
  fun i j => if i = bf ∧ j = bt then h i j + w else h i j

/-- The 8 integer neighbors of a fractional coordinate and their trilinear
weights (products of axis-wise fractional/complementary distances). -/
def triWeights (c : QV3) : List (ZV3 × ℚ) :=
  let f1 := ⌊c.1⌋; let f2 := ⌊c.2.1⌋; let f3 := ⌊c.2.2⌋
  let r1 := c.1 - f1; let r2 := c.2.1 - f2; let r3 := c.2.2 - f3
  [((f1, f2, f3), (1 - r1) * (1 - r2) * (1 - r3)),
   ((f1, f2, f3 + 1), (1 - r1) * (1 - r2) * r3),
   ((f1, f2 + 1, f3), (1 - r1) * r2 * (1 - r3)),
   ((f1, f2 + 1, f3 + 1), (1 - r1) * r2 * r3),
   ((f1 + 1, f2, f3), r1 * (1 - r2) * (1 - r3)),
   ((f1 + 1, f2, f3 + 1), r1 * (1 - r2) * r3),
   ((f1 + 1, f2 + 1, f3), r1 * r2 * (1 - r3)),
   ((f1 + 1, f2 + 1, f3 + 1), r1 * r2 * r3)]

/-- Partial-volume accumulation of one source voxel with bin `bf` at
transformed coordinate `c`: skip it if `bf` is the sentinel `-1`, otherwise
add each neighbor's trilinear weight to `[bf, b_to]` for every neighbor
whose padded reference value `b_to` is not the sentinel. -/
def accumPV (toData : ZV3 → ℤ) (h : JHist) (bf : ℤ) (c : QV3) : JHist :=
  if bf < 0 then h
  else
    (triWeights c).foldl
      (fun h nw => if toData nw.1 < 0 then h else bumpHist h bf (toData nw.1) nw.2) h

/-- Modelled from the spec: the C accumulation routine `_joint_histogram`
(module `_registration`, not under `src/`).  Per spec section 4.4 the
histogram is rebuilt from zero on every evaluation; coordinates are offset
by the one-voxel padding border of the reference volume; the `pv` (0) and
`tri` (1) interpolation codes are treated as aliases; a negative code
selects random interpolation, modelled as the same accumulation on
coordinates perturbed by an offset derived from the drawn value (the spec
fixes only that the result depends on that fresh value). -/
def _joint_histogram (fromData : List ℤ) (toData : ZV3 → ℤ) (coords : List QV3)
    (interp : ℤ) : JHist :=
  let off : ℚ := if interp < 0 then 1 / ((interp.natAbs % 97 : ℕ) + 2 : ℚ) else 0
  (fromData.zip coords).foldl
    (fun h p =>
      accumPV toData h p.1 (p.2.1 + 1 + off, p.2.2.1 + 1 + off, p.2.2.2 + 1 + off))
    zeroHist

/-- Modelled from the spec: the built-in similarity statistic (module
`similarity_measures`, not under `src/`), a correlation-ratio-style measure
per spec section 4.5 and glossary: one minus the fraction of the target
intensity variance left unexplained by the source bin. -/
def similarityCR (from_bins to_bins : ℕ) (h : JHist) : ℚ :=
  let n := ∑ i in Finset.range from_bins, ∑ j in Finset.range to_bins, h i j
  if n = 0 then 0
  else
    let rowMass := fun i => ∑ j in Finset.range to_bins, h i j
    let m1 := (∑ i in Finset.range from_bins,
      ∑ j in Finset.range to_bins, (j : ℚ) * h i j) / n
    let m2 := (∑ i in Finset.range from_bins,
      ∑ j in Finset.range to_bins, (j : ℚ) ^ 2 * h i j) / n
    let totVar := m2 - m1 ^ 2
    if totVar = 0 then 0
    else
      let condVar := fun i =>
        if rowMass i = 0 then 0
        else (∑ j in Finset.range to_bins, (j : ℚ) ^ 2 * h i j) -
          (∑ j in Finset.range to_bins, (j : ℚ) * h i j) ^ 2 / rowMass i
      1 - (∑ i in Finset.range from_bins, condVar i) / (n * totVar)

/-- The registration session state used by `_eval`, `explore` and
`optimize`: the cached clamped subsampled moving data (flattened), the
index-aligned voxel coordinate cache, the padded clamped reference volume
(as a total function, `-1` outside), the bin counts, the fixed pre/post
coordinate conversions and the interpolation code `self._interp`. -/
structure Session where
  from_data : List ℤ
  vox_coords : List ZV3
  to_data : ZV3 → ℤ
  from_bins : ℕ
  to_bins : ℕ
  from_affine : QV3 → QV3
  to_inv_affine : QV3 → QV3
  interp : ℤ

/-- The interpolation code passed to `_joint_histogram` by `_eval`
(lines 197-199): the stored code itself, except that a negative stored code
(`rand` mode) is replaced by the negation of a freshly drawn random integer
`np.random.randint(maxint)`.  The draw is an explicit argument. -/
def passedInterp (s : Session) (draw : ℕ) : ℤ :=
  if s.interp < 0 then -(draw : ℤ) else s.interp

/-- Embedding of `HistogramRegistration._eval` (lines 180-213): apply the
voxel-to-voxel transform to the cached voxel coordinates, accumulate the
joint histogram, return it together with the similarity score. -/
def Session.evalT (s : Session) (Tv : ChainTransform) (draw : ℕ) : JHist × ℚ :=
  let coords := s.vox_coords.map fun v =>
    Tv.apply ((v.1 : ℚ), (v.2.1 : ℚ), (v.2.2 : ℚ))
  let h := _joint_histogram s.from_data s.to_data coords (passedInterp s draw)
  (h, similarityCR s.from_bins s.to_bins h)

/-- Embedding of `HistogramRegistration.eval` (lines 168-178): wrap the
world-to-world transform in a `ChainTransform` with the session's fixed
conversions and evaluate. -/
def Session.eval (s : Session) (T : Transform) (draw : ℕ) : JHist × ℚ :=
  s.evalT ⟨T, s.from_affine, s.to_inv_affine⟩ draw

/-- The per-axis offset lists of `explore` (lines 296-299): one list per
parameter axis, `[0]` by default, replaced by the offsets supplied for the
listed axes (later arguments win, as in the source's sequential
assignment). -/
def defaultDeltas (n : ℕ) (args : List (ℕ × List ℚ)) : List (List ℚ) :=
  args.foldl (fun ds a => ds.set a.1 a.2) (List.replicate n [0])

/-- Row-major Cartesian product of index ranges, as produced by `np.mgrid`
followed by `ravel()` (first axis slowest, last axis fastest). -/
def indexCombos : List ℕ → List (List ℕ)
  | [] => [[]]
  | len :: rest => (List.range len).flatMap fun i => (indexCombos rest).map (i :: ·)

/-- Embedding of `HistogramRegistration.explore(T0, *args)` (lines 285-314):
returns the flattened list of similarity scores and the list of evaluated
parameter vectors, one per trial of the Cartesian grid.  `draws` supplies
the random integer drawn at trial `i` (unused in non-random modes). -/
def Session.explore (s : Session) (T0 : Transform) (args : List (ℕ × List ℚ))
    (draws : ℕ → ℕ) : List ℚ × List (List ℚ) :=
  let n := T0.param.length
  let deltas := defaultDeltas n args
  let combos := indexCombos (deltas.map List.length)
  let Tv : ChainTransform := ⟨T0, s.from_affine, s.to_inv_affine⟩
  let param0 := Tv.param
  let trials := combos.map fun c =>
    List.zipWith (fun p0 dc => p0 + dc) param0
      (List.zipWith (fun d ci => d.getD ci 0) deltas c)
  let simis := trials.enum.map fun ic => (s.evalT (Tv.setParam ic.2) (draws ic.1)).2
  (simis, trials)

/-- The optimizer names accepted by `optimize` (lines 256-277). -/
def validMethods : List String := ["powell", "steepest", "cg", "bfgs", "simplex"]

/-- The external minimizers, as a closed enumeration. -/
inductive FminKind
  | powell
  | steepest
  | cg
  | bfgs
  | simplex
deriving DecidableEq

/-- `kwargs.setdefault(k, v)`: add the pair only when the key is absent. -/
def setdefault (kw : List (String × ℚ)) (k : String) (v : ℚ) : List (String × ℚ) :=
  if (kw.lookup k).isSome then kw else kw ++ [(k, v)]

/-- Embedding of the method dispatch of `HistogramRegistration.optimize`
(lines 252-277): select the minimizer named by `method` and install its
default tolerances into the keyword arguments with `setdefault`, or raise
`ValueError` for any other name, before any minimizer is invoked.  The
default tolerance constants `_XTOL`, `_FTOL`, `_GTOL`, `_STEP` come from
the `constants` module, which is not under `src/`; they are taken as
arguments (`xt`, `ft`, `gt`, `st`), so every theorem below holds for
whatever their values are.  The returned pair is the minimizer that the
subsequent `fmin(cost, tc0, ...)` call would run and its keyword
arguments. -/
def optimize_dispatch (xt ft gt st : ℚ) (method : String) (kw : List (String × ℚ)) :
    Except String (FminKind × List (String × ℚ)) :=
  if method = "powell" then
    .ok (.powell, setdefault (setdefault kw "xtol" xt) "ftol" ft)
  else if method = "steepest" then
    .ok (.steepest, setdefault (setdefault (setdefault kw "xtol" xt) "ftol" ft) "step" st)
  else if method = "cg" then .ok (.cg, setdefault kw "gtol" gt)
  else if method = "bfgs" then .ok (.bfgs, setdefault kw "gtol" gt)
  else if method = "simplex" then
    .ok (.simplex, setdefault (setdefault kw "xtol" xt) "ftol" ft)
  else .error ("You crazy bastard, what is this optimizer name " ++ method ++ "?")

/-- The per-method table of default tolerance keys and values installed by
`optimize`, used to state claim C8. -/
def defaultTable (xt ft gt st : ℚ) (method k : String) : Option ℚ :=
  if method = "powell" ∨ method = "simplex" then
    if k = "xtol" then some xt else if k = "ftol" then some ft else none
  else if method = "steepest" then
    if k = "xtol" then some xt else if k = "ftol" then some ft
    else if k = "step" then some st else none
  else if method = "cg" ∨ method = "bfgs" then
    if k = "gtol" then some gt else none
  else none

/-- First-defined choice between two optional values. -/
def firstSome (a b : Option ℚ) : Option ℚ :=
  match a with
  | some v => some v
  | none => b

example : ideal_spacing (5, 3, 1) (fun _ _ _ => (0 : ℤ)) 4 = some (3, 2, 1) := by decide
example : ideal_spacing_trace (5, 3, 1) (fun _ _ _ => (0 : ℤ)) 4 = [0, 1, 0] := by decide
example : ideal_spacing (2, 2, 2) (fun _ _ _ => (-1 : ℤ)) 10 = some (1, 1, 1) := by decide
example : ideal_spacing_aux (1, 1, 1) (fun _ _ _ => (0 : ℤ)) 0 5 (1, 1, 1) = none := by decide

/-- Whether position `i` is selected by the (optional) mask. -/
def selectedAt (mask : Option (List Bool)) (i : ℕ) : Prop :=
  match mask with
  | none => True
  | some m => m.getD i false = true

example : clamp [0, 10] false 0 none = .ok ([0, -1], 0) := by
  norm_num [clamp, _clamp, listMin, listMax, npRound, castShort, min_def, max_def,
    List.cons_ne_nil]
example : clamp [0, 10] false 256 none = .ok ([0, 255], 256) := by
  norm_num [clamp, _clamp, listMin, listMax, npRound, castShort, min_def, max_def,
    List.cons_ne_nil]
example : clamp [0, 10] true 256 (some [true, false]) = .error .broadcast := by
  norm_num [clamp, _clamp, listMin, listMax, truncToInt, castShort, min_def, max_def,
    List.count, scatter, List.cons_ne_nil]
example : clamp [3/2, 3/2] false 256 none = .error .zeroDivision := by
  norm_num [clamp, _clamp, listMin, listMax, min_def, max_def, List.cons_ne_nil]
example : clamp [5, 5] true 256 none = .ok ([0, 0], 1) := by
  norm_num [clamp, _clamp, listMin, listMax, truncToInt, castShort, min_def, max_def,
    List.cons_ne_nil]
example : clamp [3, 5] true 256 none = .ok ([0, 2], 3) := by
  norm_num [clamp, _clamp, listMin, listMax, truncToInt, castShort, min_def, max_def,
    List.cons_ne_nil]
example : clamp [3, 5] true 256 (some [true, true]) = .ok ([0, 2], 3) := by
  norm_num [clamp, _clamp, listMin, listMax, truncToInt, castShort, min_def, max_def,
    List.count, scatter, List.cons_ne_nil]
example : clamp [7] true 256 (some [false]) = .ok ([-1], 1) := by
  norm_num [clamp, _clamp, listMin, listMax, truncToInt, castShort, min_def, max_def,
    List.count, scatter, List.cons_ne_nil]

theorem foldl_min_le (l : List ℚ) (b : ℚ) :
    l.foldl min b ≤ b ∧ ∀ v ∈ l, l.foldl min b ≤ v := by
  induction l generalizing b with
  | nil => simp
  | cons a l ih =>
    simp only [List.foldl_cons]
    refine ⟨le_trans (ih (min b a)).1 (min_le_left _ _), fun v hv => ?_⟩
    rcases List.mem_cons.mp hv with h | h
    · rw [h]
      exact le_trans (ih (min b a)).1 (min_le_right _ _)
    · exact (ih (min b a)).2 v h

theorem foldl_max_ge (l : List ℚ) (b : ℚ) :
    b ≤ l.foldl max b ∧ ∀ v ∈ l, v ≤ l.foldl max b := by
  induction l generalizing b with
  | nil => simp
  | cons a l ih =>
    simp only [List.foldl_cons]
    refine ⟨le_trans (le_max_left _ _) (ih (max b a)).1, fun v hv => ?_⟩
    rcases List.mem_cons.mp hv with h | h
    · rw [h]
      exact le_trans (le_max_right _ _) (ih (max b a)).1
    · exact (ih (max b a)).2 v h

theorem listMin_le (x : List ℚ) (v : ℚ) (hv : v ∈ x) : listMin x ≤ v := by
  cases x with
  | nil => cases hv
  | cons a l => exact (foldl_min_le (a :: l) a).2 v hv

theorem le_listMax (x : List ℚ) (v : ℚ) (hv : v ∈ x) : v ≤ listMax x := by
  cases x with
  | nil => cases hv
  | cons a l => exact (foldl_max_ge (a :: l) a).2 v hv

theorem foldl_min_mem (l : List ℚ) (b : ℚ) :
    l.foldl min b = b ∨ l.foldl min b ∈ l := by
  induction l generalizing b with
  | nil => exact Or.inl rfl
  | cons a l ih =>
    simp only [List.foldl_cons]
    rcases ih (min b a) with h | h
    · rcases min_choice b a with hm | hm
      · exact Or.inl (h.trans hm)
      · exact Or.inr (List.mem_cons.mpr (Or.inl (h.trans hm)))
    · exact Or.inr (List.mem_cons.mpr (Or.inr h))

theorem foldl_max_mem (l : List ℚ) (b : ℚ) :
    l.foldl max b = b ∨ l.foldl max b ∈ l := by
  induction l generalizing b with
  | nil => exact Or.inl rfl
  | cons a l ih =>
    simp only [List.foldl_cons]
    rcases ih (max b a) with h | h
    · rcases max_choice b a with hm | hm
      · exact Or.inl (h.trans hm)
      · exact Or.inr (List.mem_cons.mpr (Or.inl (h.trans hm)))
    · exact Or.inr (List.mem_cons.mpr (Or.inr h))

theorem listMin_mem (x : List ℚ) (hx : x ≠ []) : listMin x ∈ x := by
  cases x with
  | nil => exact absurd rfl hx
  | cons a l =>
    rcases foldl_min_mem (a :: l) a with h | h
    · have he : listMin (a :: l) = a := by
        unfold listMin
        simpa using h
      rw [he]
      exact List.mem_cons_self a l
    · exact h

theorem listMax_mem (x : List ℚ) (hx : x ≠ []) : listMax x ∈ x := by
  cases x with
  | nil => exact absurd rfl hx
  | cons a l =>
    rcases foldl_max_mem (a :: l) a with h | h
    · have he : listMax (a :: l) = a := by
        unfold listMax
        simpa using h
      rw [he]
      exact List.mem_cons_self a l
    · exact h

theorem npRound_cases (q : ℚ) : npRound q = ⌊q⌋ ∨ npRound q = ⌊q⌋ + 1 := by
  unfold npRound
  split_ifs <;> simp

theorem npRound_range (q : ℚ) (m : ℤ) (h0 : 0 ≤ q) (hm : q ≤ (m : ℚ)) :
    0 ≤ npRound q ∧ npRound q ≤ m := by
  have hf0 : 0 ≤ ⌊q⌋ := Int.floor_nonneg.mpr h0
  have hfm : ⌊q⌋ ≤ m := by
    have h := Int.floor_mono hm
    rwa [Int.floor_intCast] at h
  rcases npRound_cases q with h | h <;> rw [h]
  · exact ⟨hf0, hfm⟩
  · refine ⟨by omega, ?_⟩
    by_contra hlt
    have hqm : ⌊q⌋ = m := by omega
    have hqeq : q = (m : ℚ) := le_antisymm hm (by rw [← hqm]; exact Int.floor_le q)
    have hlt2 : q < (⌊q⌋ : ℚ) + 1/2 := by
      rw [hqm, ← hqeq]
      linarith
    have hnp : npRound q = ⌊q⌋ := by
      unfold npRound
      rw [if_pos hlt2]
    omega

theorem truncToInt_of_nonneg (q : ℚ) (h : 0 ≤ q) : truncToInt q = ⌊q⌋ := by
  unfold truncToInt
  rw [if_neg (not_lt.mpr h)]

theorem truncToInt_intCast (z : ℤ) : truncToInt (z : ℚ) = z := by
  unfold truncToInt
  split_ifs with h
  · rw [← Int.cast_neg, Int.floor_intCast]; omega
  · rw [Int.floor_intCast]

theorem castShort_eq (z : ℤ) (h1 : -32768 ≤ z) (h2 : z ≤ 32767) : castShort z = z := by
  unfold castShort
  omega

theorem _clamp_ok_range (x : List ℚ) (intDtype : Bool) (bins : ℤ)
    (vals : List ℤ) (adj : ℤ) (hb : 1 ≤ bins)
    (h : _clamp x intDtype bins = .ok (vals, adj)) :
    adj ≤ bins ∧ 1 ≤ adj ∧ ∀ v ∈ vals, 0 ≤ v ∧ v ≤ adj - 1 := by
  simp only [_clamp] at h
  split_ifs at h with h1 h2 h3 h4
  · -- integral dtype with small dynamic range: downshift
    cases h
    obtain ⟨w0, hw0⟩ := List.exists_mem_of_ne_nil x h2
    have hd0 : (0 : ℚ) ≤ listMax x - listMin x := by
      have := listMin_le x w0 hw0
      have := le_listMax x w0 hw0
      linarith
    have hfd : truncToInt (listMax x - listMin x) = ⌊listMax x - listMin x⌋ :=
      truncToInt_of_nonneg _ hd0
    have hfd0 : 0 ≤ ⌊listMax x - listMin x⌋ := Int.floor_nonneg.mpr hd0
    have hfdm : ⌊listMax x - listMin x⌋ ≤ bins - 1 := by
      have hmono := Int.floor_mono h3.2
      rwa [Int.floor_intCast] at hmono
    simp only [hfd]
    refine ⟨by omega, by omega, fun v hv => ?_⟩
    obtain ⟨w, hw, rfl⟩ := List.mem_map.mp hv
    have hw1 : (0 : ℚ) ≤ w - listMin x := by
      have := listMin_le x w hw
      linarith
    have hw2 : w - listMin x ≤ listMax x - listMin x := by
      have := le_listMax x w hw
      linarith
    have ht : truncToInt (w - listMin x) = ⌊w - listMin x⌋ := truncToInt_of_nonneg _ hw1
    have hf1 : 0 ≤ ⌊w - listMin x⌋ := Int.floor_nonneg.mpr hw1
    have hf2 : ⌊w - listMin x⌋ ≤ ⌊listMax x - listMin x⌋ := Int.floor_mono hw2
    rw [ht, castShort_eq _ (by omega) (by omega)]
    omega
  · -- compression branch
    cases h
    obtain ⟨w0, hw0⟩ := List.exists_mem_of_ne_nil x h2
    have hd0 : (0 : ℚ) ≤ listMax x - listMin x := by
      have := listMin_le x w0 hw0
      have := le_listMax x w0 hw0
      linarith
    have hdpos : (0 : ℚ) < listMax x - listMin x := lt_of_le_of_ne hd0 (Ne.symm h4)
    refine ⟨le_refl _, hb, fun v hv => ?_⟩
    obtain ⟨w, hw, rfl⟩ := List.mem_map.mp hv
    have hw1 : (0 : ℚ) ≤ w - listMin x := by
      have := listMin_le x w hw
      linarith
    have hw2 : w - listMin x ≤ listMax x - listMin x := by
      have := le_listMax x w hw
      linarith
    have hq0 : (0 : ℚ) ≤ ((bins - 1 : ℤ) : ℚ) / (listMax x - listMin x) * (w - listMin x) := by
      apply mul_nonneg (div_nonneg ?_ hd0) hw1
      have hbq : (1 : ℚ) ≤ (bins : ℚ) := by exact_mod_cast hb
      push_cast
      linarith
    have hqm : ((bins - 1 : ℤ) : ℚ) / (listMax x - listMin x) * (w - listMin x) ≤
        ((bins - 1 : ℤ) : ℚ) := by
      have hfrac : (0 : ℚ) ≤ ((bins - 1 : ℤ) : ℚ) / (listMax x - listMin x) := by
        apply div_nonneg ?_ hd0
        have hbq : (1 : ℚ) ≤ (bins : ℚ) := by exact_mod_cast hb
        push_cast
        linarith
      calc ((bins - 1 : ℤ) : ℚ) / (listMax x - listMin x) * (w - listMin x)
          ≤ ((bins - 1 : ℤ) : ℚ) / (listMax x - listMin x) * (listMax x - listMin x) :=
            mul_le_mul_of_nonneg_left hw2 hfrac
        _ = ((bins - 1 : ℤ) : ℚ) := div_mul_cancel₀ _ (ne_of_gt hdpos)
    obtain ⟨hr0, hr1⟩ := npRound_range _ (bins - 1) hq0 hqm
    rw [castShort_eq _ (by omega) (by omega)]
    omega

theorem scatter_mem (m : List Bool) (vs : List ℤ) (v : ℤ) (hv : v ∈ scatter m vs) :
    v = -1 ∨ v ∈ vs := by
  induction m generalizing vs with
  | nil => simp [scatter] at hv
  | cons b m ih =>
    cases b
    · rw [scatter] at hv
      rcases List.mem_cons.mp hv with h | h
      · exact Or.inl h
      · exact ih vs h
    · cases vs with
      | nil =>
        rw [scatter] at hv
        rcases List.mem_cons.mp hv with h | h
        · exact Or.inl h
        · rcases ih [] h with h2 | h2
          · exact Or.inl h2
          · cases h2
      | cons w ws =>
        rw [scatter] at hv
        rcases List.mem_cons.mp hv with h | h
        · exact Or.inr (h ▸ List.mem_cons_self w ws)
        · rcases ih ws h with h2 | h2
          · exact Or.inl h2
          · exact Or.inr (List.mem_cons_of_mem w h2)

/-- C1 as stated is false: `clamp` accepts the request `bins = 0` without
error (the only gate is `bins > np.iinfo(np.short).max`), yet on the float
volume `[0, 10]` it returns the clamped value `0`, which exceeds
`adjusted_bins - 1 = -1`. -/
theorem C1_counterexample :
    clamp [0, 10] false 0 none = .ok ([0, -1], 0) ∧
    ¬ ∀ v ∈ ([0, -1] : List ℤ), -1 ≤ v ∧ v ≤ 0 - 1 := by
  constructor
  · norm_num [clamp, _clamp, listMin, listMax, npRound, castShort, min_def, max_def,
      List.cons_ne_nil]
  · decide

/-- C1 amended: for every requested bin count `bins ≥ 1` (and any input
array, dtype and mask), whenever `clamp` returns without error the adjusted
bin count is at most the requested one and every clamped value lies in
`[-1, adjusted_bins - 1]`. -/
theorem C1_amended (x : List ℚ) (intDtype : Bool) (bins : ℤ)
    (mask : Option (List Bool)) (y : List ℤ) (adj : ℤ) (hb : 1 ≤ bins)
    (hok : clamp x intDtype bins mask = .ok (y, adj)) :
    adj ≤ bins ∧ ∀ v ∈ y, -1 ≤ v ∧ v ≤ adj - 1 := by
  cases mask with
  | none =>
    simp only [clamp] at hok
    split_ifs at hok with h1
    obtain ⟨ha, h1a, hrange⟩ := _clamp_ok_range x intDtype bins y adj hb hok
    exact ⟨ha, fun v hv => ⟨by linarith [(hrange v hv).1], (hrange v hv).2⟩⟩
  | some m =>
    simp only [clamp] at hok
    split_ifs at hok with h1 h2
    split at hok
    next e heq => exact Except.noConfusion hok
    next vals bins2 heq =>
      obtain ⟨ha, h1a, hrange⟩ := _clamp_ok_range x intDtype bins vals bins2 hb heq
      split_ifs at hok with h3 h4
      · cases hok
        refine ⟨ha, fun v hv => ?_⟩
        rcases scatter_mem m vals v hv with h | h
        · omega
        · have := hrange v h
          omega
      · cases hok
        refine ⟨ha, fun v hv => ?_⟩
        rcases scatter_mem m _ v hv with h | h
        · omega
        · obtain ⟨w, hwv⟩ := List.length_eq_one.mp h4
          have hmem : v ∈ vals := by
            rw [List.eq_of_mem_replicate h, hwv]
            simp [List.headD]
          have := hrange v hmem
          omega

theorem C1_witness :
    (256 : ℤ) ≤ 256 ∧ ∀ v ∈ ([0, 255] : List ℤ), -1 ≤ v ∧ v ≤ 256 - 1 :=
  C1_amended [0, 10] false 256 none [0, 255] 256 (by norm_num)
    (by norm_num [clamp, _clamp, listMin, listMax, npRound, castShort, min_def,
      max_def, List.cons_ne_nil])

/-- C2 is contradicted by the code: `clamp` computes `xm = x[mask]` but then
passes the full array `x` (not `xm`) to `_clamp`, so min/max are taken over
all voxels — here the maximum 10 comes from the masked-out voxel — and the
assignment of the full shifted array into the one-element masked selection
fails to broadcast, raising `ValueError`.  The conjuncts evaluate the model
at the failing input and contrast the maximum the code uses (over `[0, 10]`)
with the maximum over the selected voxels (over `[0]`). -/
theorem C2_mask_bug :
    clamp [0, 10] true 256 (some [true, false]) = .error .broadcast ∧
    listMax [0, 10] = 10 ∧ listMax [0] = 0 := by
  refine ⟨?_, ?_, ?_⟩ <;>
    norm_num [clamp, _clamp, listMin, listMax, truncToInt, castShort, min_def,
      max_def, List.count, scatter, List.cons_ne_nil]

/-- C3 as stated ("of any element type") is false: on a constant volume of
floating dtype the compression branch is taken and `a = dmax/d` divides by
`d == 0`, raising `ZeroDivisionError`. -/
theorem C3_counterexample :
    clamp [3/2, 3/2] false 256 none = .error .zeroDivision := by
  norm_num [clamp, _clamp, listMin, listMax, min_def, max_def, List.cons_ne_nil]

/-- C3 amended: for every constant-valued nonempty unmasked volume of
*integral* element type and `bins = 256`, `clamp` completes without error
(no division is reached), returns `adjusted_bins = 1` and assigns bin `0`
to every voxel. -/
theorem C3_amended (x : List ℚ) (c : ℚ) (hne : x ≠ []) (hc : ∀ v ∈ x, v = c) :
    clamp x true 256 none = .ok (x.map fun _ => (0 : ℤ), 1) := by
  have hmin : listMin x = c := hc _ (listMin_mem x hne)
  have hmax : listMax x = c := hc _ (listMax_mem x hne)
  have hmap : (x.map fun v => castShort (truncToInt (v - c))) = x.map fun _ => (0 : ℤ) := by
    apply List.map_congr_left
    intro a ha
    rw [hc a ha]
    norm_num [truncToInt, castShort]
  simp only [clamp, _clamp, hmin, hmax]
  rw [if_neg (by norm_num : ¬ (32767 : ℤ) < 256),
    if_neg (by norm_num : ¬ (2 : ℤ) ^ (8 * 2 - 1) - 1 < 256 - 1),
    if_neg hne, if_pos ⟨by norm_num, by norm_num⟩, hmap]
  norm_num [truncToInt]

theorem C3_witness : clamp [5, 5] true 256 none = .ok ([0, 0], 1) := by
  have h := C3_amended [5, 5] 5 (by simp)
    (by intro v hv; simp only [List.mem_cons, List.not_mem_nil, or_false] at hv
        rcases hv with rfl | rfl <;> rfl)
  simpa using h

theorem scatter_all_true (m : List Bool) (vs : List ℤ)
    (hm : ∀ b ∈ m, b = true) (hl : m.length = vs.length) : scatter m vs = vs := by
  induction m generalizing vs with
  | nil =>
    cases vs with
    | nil => rfl
    | cons _ _ => simp at hl
  | cons b m ih =>
    have hb : b = true := hm b (List.mem_cons_self b m)
    subst hb
    cases vs with
    | nil => simp at hl
    | cons w ws =>
      rw [scatter, ih ws (fun b hb => hm b (List.mem_cons_of_mem _ hb)) (by simpa using hl)]

theorem getD_map_of_lt (f : ℚ → ℤ) (l : List ℚ) (i : ℕ) (hi : i < l.length) :
    (l.map f).getD i 0 = f (l.getD i 0) := by
  induction l generalizing i with
  | nil => cases hi
  | cons a l ih =>
    cases i with
    | zero => rfl
    | succ n =>
      simp only [List.map_cons, List.getD_cons_succ]
      exact ih n (by simpa using hi)

/-- The integral small-dynamic branch of `_clamp`: a pure downshift together
with the bin-count shrink. -/
theorem _clamp_int_eq (x : List ℚ) (bins : ℤ)
    (hne : x ≠ []) (hbins : ¬ (2 : ℤ) ^ (8 * 2 - 1) - 1 < bins - 1)
    (hd : listMax x - listMin x ≤ (bins : ℚ) - 1) :
    _clamp x true bins =
      .ok (x.map fun v => castShort (truncToInt (v - listMin x)),
        truncToInt (listMax x - listMin x) + 1) := by
  simp only [_clamp]
  rw [if_neg hbins, if_neg hne, if_pos ⟨by norm_num, by push_cast; linarith⟩]

/-- C9: an integral-typed volume whose dynamic range `d = max - min` fits in
`bins - 1` is clamped by a lossless shift — the adjusted bin count is
`d + 1` and each selected voxel's clamped value plus the volume minimum
recovers the original value. -/
theorem C9_lossless_shift (x : List ℚ) (bins : ℤ) (mask : Option (List Bool))
    (y : List ℤ) (adj : ℤ)
    (hint : ∀ v ∈ x, ∃ z : ℤ, v = (z : ℚ))
    (hd : listMax x - listMin x ≤ (bins : ℚ) - 1)
    (hok : clamp x true bins mask = .ok (y, adj)) :
    (adj : ℚ) = listMax x - listMin x + 1 ∧
    ∀ i : ℕ, i < y.length → selectedAt mask i →
      ((y.getD i 0 : ℤ) : ℚ) + listMin x = x.getD i 0 := by
  by_cases h1 : (32767 : ℤ) < bins
  · rw [clamp.eq_def, if_pos h1] at hok
    exact Except.noConfusion hok
  have hne : x ≠ [] := by
    intro hxe
    subst hxe
    rw [clamp.eq_def, if_neg h1] at hok
    cases mask with
    | none =>
      simp only [_clamp] at hok
      split_ifs at hok
    | some m =>
      simp only [_clamp] at hok
      split_ifs at hok
  have hbins : ¬ (2 : ℤ) ^ (8 * 2 - 1) - 1 < bins - 1 := by norm_num; omega
  have hcl := _clamp_int_eq x bins hne hbins hd
  -- integrality facts
  obtain ⟨zm, hzm⟩ := hint _ (listMin_mem x hne)
  obtain ⟨zM, hzM⟩ := hint _ (listMax_mem x hne)
  have hdz : zm ≤ zM := by
    have h := listMin_le x _ (listMax_mem x hne)
    rw [hzm, hzM] at h
    exact_mod_cast h
  have hdle : zM - zm ≤ bins - 1 := by
    have h : ((zM : ℚ)) - (zm : ℚ) ≤ (bins : ℚ) - 1 := by
      rw [← hzm, ← hzM]
      exact hd
    have h2 : ((zM - zm : ℤ) : ℚ) ≤ ((bins - 1 : ℤ) : ℚ) := by push_cast; linarith
    exact_mod_cast h2
  have htd : truncToInt (listMax x - listMin x) = zM - zm := by
    rw [hzm, hzM, show (zM : ℚ) - (zm : ℚ) = ((zM - zm : ℤ) : ℚ) by push_cast; ring,
      truncToInt_intCast]
  have hkey : ∀ v ∈ x, ((castShort (truncToInt (v - listMin x)) : ℤ) : ℚ)
      = v - listMin x := by
    intro v hv
    obtain ⟨zv, rfl⟩ := hint v hv
    have hlo : zm ≤ zv := by
      have h := listMin_le x _ hv
      rw [hzm] at h
      exact_mod_cast h
    have hhi : zv ≤ zM := by
      have h := le_listMax x _ hv
      rw [hzM] at h
      exact_mod_cast h
    rw [hzm, show (zv : ℚ) - (zm : ℚ) = ((zv - zm : ℤ) : ℚ) by push_cast; ring,
      truncToInt_intCast, castShort_eq _ (by omega) (by omega)]
  have hadjq : ((truncToInt (listMax x - listMin x) + 1 : ℤ) : ℚ)
      = listMax x - listMin x + 1 := by
    rw [htd, hzm, hzM]
    push_cast
    ring
  cases mask with
  | none =>
    rw [clamp.eq_def, if_neg h1] at hok
    simp only at hok
    rw [hcl] at hok
    obtain ⟨hy, ha⟩ := Prod.ext_iff.mp (Except.ok.inj hok)
    simp only at hy ha
    subst ha
    refine ⟨hadjq, fun i hi _ => ?_⟩
    rw [← hy] at hi ⊢
    rw [List.length_map] at hi
    rw [getD_map_of_lt _ x i hi]
    have hmem : x.getD i 0 ∈ x := by
      rw [List.getD_eq_getElem x 0 hi]
      exact List.getElem_mem hi
    rw [hkey _ hmem]
    ring
  | some m =>
    rw [clamp.eq_def, if_neg h1] at hok
    simp only at hok
    split_ifs at hok with hml
    rw [hcl] at hok
    simp only at hok
    split_ifs at hok with h3 h4
    · -- all-true mask: scatter is the identity
      obtain ⟨hy, ha⟩ := Prod.ext_iff.mp (Except.ok.inj hok)
      simp only at hy ha
      subst ha
      have hmx : m.length = x.length := not_ne_iff.mp hml
      have hlen : (x.map fun v => castShort (truncToInt (v - listMin x))).length
          = m.length := by
        rw [List.length_map]
        omega
      have hcnt : m.count true = m.length := by
        rw [List.length_map] at h3
        omega
      have halltrue : ∀ b ∈ m, b = true := by
        intro b hb
        exact ((List.count_eq_length.mp hcnt) b hb).symm
      rw [scatter_all_true m _ halltrue hlen.symm] at hy
      refine ⟨hadjq, fun i hi _ => ?_⟩
      rw [← hy] at hi ⊢
      rw [List.length_map] at hi
      rw [getD_map_of_lt _ x i hi]
      have hmem : x.getD i 0 ∈ x := by
        rw [List.getD_eq_getElem x 0 hi]
        exact List.getElem_mem hi
      rw [hkey _ hmem]
      ring
    · -- broadcast of a single value: the mask must be [false], so no voxel
      -- is selected
      obtain ⟨hy, ha⟩ := Prod.ext_iff.mp (Except.ok.inj hok)
      simp only at hy ha
      subst ha
      refine ⟨hadjq, fun i hi hsel => ?_⟩
      exfalso
      have hmx : m.length = x.length := not_ne_iff.mp hml
      rw [List.length_map] at h3 h4
      have hm1 : m.length = 1 := by omega
      obtain ⟨b, rfl⟩ := List.length_eq_one.mp hm1
      cases b with
      | true =>
        apply h3
        rw [h4]
        rfl
      | false =>
        simp only [selectedAt] at hsel
        cases i with
        | zero => simp at hsel
        | succ n => simp at hsel

theorem C9_witness :
    ((3 : ℤ) : ℚ) = listMax [3, 5] - listMin [3, 5] + 1 ∧
    ∀ i : ℕ, i < ([0, 2] : List ℤ).length → selectedAt none i →
      ((([0, 2] : List ℤ).getD i 0 : ℤ) : ℚ) + listMin [3, 5]
        = ([3, 5] : List ℚ).getD i 0 :=
  C9_lossless_shift [3, 5] 256 none [0, 2] 3
    (by intro v hv
        simp only [List.mem_cons, List.not_mem_nil, or_false] at hv
        rcases hv with rfl | rfl
        · exact ⟨3, by norm_num⟩
        · exact ⟨5, by norm_num⟩)
    (by norm_num [listMin, listMax, min_def, max_def])
    (by norm_num [clamp, _clamp, listMin, listMax, truncToInt, castShort, min_def,
      max_def, List.cons_ne_nil])

theorem get3_zero (v : ℕ × ℕ × ℕ) : get3 v 0 = v.1 := rfl

theorem get3_one (v : ℕ × ℕ × ℕ) : get3 v 1 = v.2.1 := rfl

theorem get3_two (v : ℕ × ℕ × ℕ) : get3 v 2 = v.2.2 := rfl

theorem sampleIdx_subset_zero (d s : ℕ) (h : s = 0 ∨ d ≤ s) :
    sampleIdx d s ⊆ {0} := by
  intro i hi
  simp only [sampleIdx, Finset.mem_filter, Finset.mem_range] at hi
  simp only [Finset.mem_singleton]
  rcases h with h | h
  · subst h
    rw [Nat.mod_zero] at hi
    exact hi.2
  · have hlt : i < s := lt_of_lt_of_le hi.1 h
    have := Nat.mod_eq_of_lt hlt
    omega

theorem sampleIdx_card_le_one (d s : ℕ) (h : s = 0 ∨ d ≤ s) :
    (sampleIdx d s).card ≤ 1 := by
  calc (sampleIdx d s).card ≤ ({0} : Finset ℕ).card :=
        Finset.card_le_card (sampleIdx_subset_zero d s h)
    _ = 1 := Finset.card_singleton 0

theorem one_le_div_of_two_le_card (d s : ℕ) (h : 2 ≤ (sampleIdx d s).card) :
    1 ≤ d / s := by
  by_contra hc
  have hds : s = 0 ∨ d ≤ s := by
    rcases Nat.eq_zero_or_pos s with h0 | h0
    · exact Or.inl h0
    · right
      by_contra hsd
      push_neg at hsd
      exact hc ((Nat.one_le_div_iff h0).mpr (le_of_lt hsd))
  have := sampleIdx_card_le_one d s hds
  omega

theorem countStrided_le_card (dims sp : ℕ × ℕ × ℕ) (data : ℕ → ℕ → ℕ → ℤ) :
    countStrided dims sp data ≤
      (sampleIdx dims.1 sp.1).card *
        ((sampleIdx dims.2.1 sp.2.1).card * (sampleIdx dims.2.2 sp.2.2).card) := by
  calc countStrided dims sp data ≤ (stridedIdx dims sp).card :=
        Finset.card_filter_le _ _
    _ = _ := by simp [stridedIdx, Finset.card_product]

theorem exists_axis_of_two_le (dims sp : ℕ × ℕ × ℕ) (data : ℕ → ℕ → ℕ → ℤ)
    (h : 2 ≤ countStrided dims sp data) :
    1 ≤ (ddims dims sp).1 ∨ 1 ≤ (ddims dims sp).2.1 ∨ 1 ≤ (ddims dims sp).2.2 := by
  by_contra hc
  push_neg at hc
  obtain ⟨h1, h2, h3⟩ := hc
  simp only [ddims] at h1 h2 h3
  have c1 : (sampleIdx dims.1 sp.1).card ≤ 1 := by
    by_contra hcc
    push_neg at hcc
    exact absurd (one_le_div_of_two_le_card _ _ hcc) (by omega)
  have c2 : (sampleIdx dims.2.1 sp.2.1).card ≤ 1 := by
    by_contra hcc
    push_neg at hcc
    exact absurd (one_le_div_of_two_le_card _ _ hcc) (by omega)
  have c3 : (sampleIdx dims.2.2 sp.2.2).card ≤ 1 := by
    by_contra hcc
    push_neg at hcc
    exact absurd (one_le_div_of_two_le_card _ _ hcc) (by omega)
  have hprod := countStrided_le_card dims sp data
  have : (sampleIdx dims.1 sp.1).card *
      ((sampleIdx dims.2.1 sp.2.1).card * (sampleIdx dims.2.2 sp.2.2).card) ≤ 1 :=
    le_trans (Nat.mul_le_mul c1 (Nat.mul_le_mul c2 c3)) (by norm_num)
  omega

theorem chooseDir_isLeastArgmax (dd : ℕ × ℕ × ℕ) :
    isLeastArgmax3 (get3 dd) (chooseDir dd) := by
  unfold chooseDir
  split_ifs with h1 h2
  · refine ⟨fun i => ?_, fun i hi => ?_⟩
    · fin_cases i <;> simp [get3] <;> omega
    · exact Fin.zero_le i
  · refine ⟨fun i => ?_, fun i hi => ?_⟩
    · fin_cases i <;> simp [get3] <;> omega
    · fin_cases i
      · simp [get3] at hi
        omega
      · exact le_refl _
      · decide
  · refine ⟨fun i => ?_, fun i hi => ?_⟩
    · fin_cases i <;> simp [get3] <;> omega
    · fin_cases i
      · simp [get3] at hi
        omega
      · simp [get3] at hi
        omega
      · exact le_refl _

/-- C5 amended: the loop body increments the stride component of the axis
whose *floor-divided full extent* `dims[i] // spacing[i]` (the code's
`ddims`) is largest, ties broken in favor of the lowest axis index —
not the axis of largest actual strided extent `ceil(dims[i]/spacing[i])`. -/
theorem C5_amended (dims sp : ℕ × ℕ × ℕ) :
    stepSpacing dims sp = bumpSpacing sp (chooseDir (ddims dims sp)) ∧
    isLeastArgmax3 (get3 (ddims dims sp)) (chooseDir (ddims dims sp)) :=
  ⟨rfl, chooseDir_isLeastArgmax _⟩

/-- C5 as stated is false: on the all-zero volume of shape `(5, 3, 1)` with
target 4, the second loop iteration runs at `spacing = (2, 1, 1)`, where the
current strided extents are `(3, 3, 1)` — the largest-extent rule with
lowest-index tie-break selects axis 0 — but the code (which floor-divides
the full extents, getting `(2, 3, 1)`) increments axis 1. -/
theorem C5_counterexample :
    ideal_spacing_trace (5, 3, 1) (fun _ _ _ => (0 : ℤ)) 4 = [0, 1, 0] ∧
    stepSpacing (5, 3, 1) (1, 1, 1) = (2, 1, 1) ∧
    chooseDir (ddims (5, 3, 1) (2, 1, 1)) = 1 ∧
    isLeastArgmax3 (stridedExtent (5, 3, 1) (2, 1, 1)) 0 ∧
    ¬ isLeastArgmax3 (stridedExtent (5, 3, 1) (2, 1, 1)) 1 := by decide

/-- Loop measure for `ideal_spacing`: total slack of the spacing components
below `dims + 1`. -/
def measureSp (dims sp : ℕ × ℕ × ℕ) : ℕ :=
  (dims.1 + 1 - sp.1) + (dims.2.1 + 1 - sp.2.1) + (dims.2.2 + 1 - sp.2.2)

theorem bump_measure_lt (dims sp : ℕ × ℕ × ℕ) (j : Fin 3)
    (hj : 1 ≤ get3 (ddims dims sp) j) :
    measureSp dims (bumpSpacing sp j) < measureSp dims sp := by
  have hle : ∀ d s : ℕ, 1 ≤ d / s → s ≤ d := by
    intro d s h
    by_contra hds
    push_neg at hds
    rw [Nat.div_eq_of_lt hds] at h
    omega
  obtain ⟨a, b, c⟩ := dims
  obtain ⟨p, q, r⟩ := sp
  fin_cases j
  · simp only [ddims] at hj
    simp only [get3] at hj
    have := hle a p hj
    simp [bumpSpacing, measureSp]
    omega
  · simp only [ddims] at hj
    simp only [get3] at hj
    norm_num at hj
    have := hle b q hj
    simp [bumpSpacing, measureSp]
    omega
  · simp only [ddims] at hj
    simp only [get3] at hj
    have := hle c r hj
    simp [bumpSpacing, measureSp]
    omega

theorem measureSp_step_lt (dims sp : ℕ × ℕ × ℕ) (data : ℕ → ℕ → ℕ → ℤ)
    (npoints : ℤ) (h1 : 1 ≤ npoints)
    (h2 : npoints < (countStrided dims sp data : ℤ)) :
    measureSp dims (stepSpacing dims sp) < measureSp dims sp := by
  have hc2 : 2 ≤ countStrided dims sp data := by omega
  have hmax := chooseDir_isLeastArgmax (ddims dims sp)
  have hd1 : 1 ≤ get3 (ddims dims sp) (chooseDir (ddims dims sp)) := by
    rcases exists_axis_of_two_le dims sp data hc2 with h | h | h
    · have h0 := hmax.1 0
      rw [get3_zero] at h0
      omega
    · have h0 := hmax.1 1
      rw [get3_one] at h0
      omega
    · have h0 := hmax.1 2
      rw [get3_two] at h0
      omega
  exact bump_measure_lt dims sp _ hd1

theorem ideal_spacing_aux_isSome (dims : ℕ × ℕ × ℕ) (data : ℕ → ℕ → ℕ → ℤ)
    (npoints : ℤ) (h1 : 1 ≤ npoints) :
    ∀ fuel sp, measureSp dims sp < fuel →
      ∃ r, ideal_spacing_aux dims data npoints fuel sp = some r := by
  intro fuel
  induction fuel with
  | zero => intro sp h; omega
  | succ f ih =>
    intro sp hm
    rw [ideal_spacing_aux]
    split_ifs with hc
    · exact ih (stepSpacing dims sp)
        (by have := measureSp_step_lt dims sp data npoints h1 hc; omega)
    · exact ⟨sp, rfl⟩

theorem ideal_spacing_aux_post (dims : ℕ × ℕ × ℕ) (data : ℕ → ℕ → ℕ → ℤ)
    (npoints : ℤ) :
    ∀ fuel sp r, ideal_spacing_aux dims data npoints fuel sp = some r →
      (countStrided dims r data : ℤ) ≤ npoints := by
  intro fuel
  induction fuel with
  | zero => intro sp r h; exact Option.noConfusion h
  | succ f ih =>
    intro sp r h
    rw [ideal_spacing_aux] at h
    split_ifs at h with hc
    · exact ih _ r h
    · cases h
      omega

theorem countStrided_allMasked (dims sp : ℕ × ℕ × ℕ) (data : ℕ → ℕ → ℕ → ℤ)
    (h : ∀ i j k, data i j k < 0) : countStrided dims sp data = 0 := by
  unfold countStrided
  rw [Finset.card_eq_zero, Finset.filter_eq_empty_iff]
  intro p _
  exact not_le.mpr (h p.1 p.2.1 p.2.2)

/-- C4 amended: for every target count `npoints ≥ 1`, the tuning loop of
`ideal_spacing` terminates on *every* volume and the resulting strided
view has at most `npoints` non-sentinel voxels; for a fully-masked volume
it returns `[1,1,1]` without entering the loop.  (For `npoints ≤ 0` the
loop need not terminate, see the counterexample.) -/
theorem C4_amended (dims : ℕ × ℕ × ℕ) (data : ℕ → ℕ → ℕ → ℤ) (npoints : ℤ)
    (h : 1 ≤ npoints) :
    (∃ sp, ideal_spacing dims data npoints = some sp ∧
      (countStrided dims sp data : ℤ) ≤ npoints) ∧
    ((∀ i j k, data i j k < 0) → ideal_spacing dims data npoints = some (1, 1, 1)) := by
  constructor
  · obtain ⟨r, hr⟩ := ideal_spacing_aux_isSome dims data npoints h
      (dims.1 + dims.2.1 + dims.2.2 + 1) (1, 1, 1)
      (by simp only [measureSp]; omega)
    exact ⟨r, hr, ideal_spacing_aux_post dims data npoints _ _ r hr⟩
  · intro hm
    rw [ideal_spacing, ideal_spacing_aux, countStrided_allMasked dims (1, 1, 1) data hm]
    rw [if_neg (by push_cast; omega)]

theorem C4_witness :
    (∃ sp, ideal_spacing (2, 2, 2) (fun _ _ _ => (0 : ℤ)) 3 = some sp ∧
      (countStrided (2, 2, 2) sp (fun _ _ _ => (0 : ℤ)) : ℤ) ≤ 3) ∧
    ((∀ i j k : ℕ, (fun (_ _ _ : ℕ) => (0 : ℤ)) i j k < 0) →
      ideal_spacing (2, 2, 2) (fun _ _ _ => (0 : ℤ)) 3 = some (1, 1, 1)) :=
  C4_amended (2, 2, 2) (fun _ _ _ => (0 : ℤ)) 3 (by norm_num)

theorem countStrided_ones (sp : ℕ × ℕ × ℕ) :
    countStrided (1, 1, 1) sp (fun _ _ _ => (0 : ℤ)) = 1 := by
  have h1 : ∀ s, sampleIdx 1 s = {0} := by
    intro s
    ext i
    simp only [sampleIdx, Finset.mem_filter, Finset.mem_range, Nat.lt_one_iff,
      Finset.mem_singleton]
    constructor
    · exact fun h => h.1
    · intro h
      subst h
      exact ⟨rfl, Nat.zero_mod s⟩
  unfold countStrided stridedIdx
  rw [h1, h1, h1]
  rw [Finset.singleton_product_singleton, Finset.singleton_product_singleton]
  rw [Finset.filter_singleton, if_pos (by norm_num)]
  exact Finset.card_singleton _

/-- C4 as stated is false for the target count 0: on a single-voxel volume
whose voxel is non-sentinel, the strided view always keeps that voxel, so
`actual_npoints` stays 1 > 0 and the `while` loop never exits no matter how
many iterations it is allowed. -/
theorem C4_counterexample :
    ¬ ∃ fuel, (ideal_spacing_aux (1, 1, 1) (fun _ _ _ => (0 : ℤ)) 0 fuel
      (1, 1, 1)).isSome = true := by
  rintro ⟨fuel, hf⟩
  have hall : ∀ f sp, ideal_spacing_aux (1, 1, 1) (fun _ _ _ => (0 : ℤ)) 0 f sp = none := by
    intro f
    induction f with
    | zero => intro sp; rfl
    | succ g ih =>
      intro sp
      rw [ideal_spacing_aux, countStrided_ones sp, if_pos (by norm_num)]
      exact ih _
  rw [hall fuel (1, 1, 1)] at hf
  simp at hf

theorem evalT_notrand (s : Session) (Tv : ChainTransform) (d1 d2 : ℕ)
    (h : s.interp = 0 ∨ s.interp = 1) : s.evalT Tv d1 = s.evalT Tv d2 := by
  have hp : ∀ d : ℕ, passedInterp s d = s.interp := by
    intro d
    unfold passedInterp
    rcases h with h | h <;> rw [h] <;> norm_num
  unfold Session.evalT
  rw [hp d1, hp d2]

/-- C6: evaluating `eval` twice with the same transform under a non-random
interpolation mode (`pv`, code 0, or `tri`, code 1) yields identical joint
histograms and identical similarity scores, whatever random integers are
drawn; under `rand` mode (negative stored code) the interpolation argument
handed to the accumulation routine is the negation of the integer freshly
drawn before that pass, so two evaluations are not required to match. -/
theorem C6_eval_determinism :
    (∀ (s : Session) (T : Transform) (d1 d2 : ℕ), s.interp = 0 ∨ s.interp = 1 →
      s.eval T d1 = s.eval T d2) ∧
    (∀ (s : Session) (d : ℕ), s.interp < 0 → passedInterp s d = -((d : ℕ) : ℤ)) := by
  constructor
  · intro s T d1 d2 h
    unfold Session.eval
    exact evalT_notrand s _ d1 d2 h
  · intro s d h
    unfold passedInterp
    rw [if_pos h]

/-- A concrete one-voxel session in partial-volume mode. -/
def sessionPV : Session :=
  ⟨[0], [(0, 0, 0)], fun _ => 0, 1, 1, id, id, 0⟩

/-- The same session in random mode. -/
def sessionRand : Session :=
  ⟨[0], [(0, 0, 0)], fun _ => 0, 1, 1, id, id, -1⟩

/-- The identity transform with one free parameter. -/
def transformId : Transform := ⟨[0], fun _ v => v⟩

theorem C6_witness :
    sessionPV.eval transformId 0 = sessionPV.eval transformId 5 ∧
    passedInterp sessionRand 7 = -((7 : ℕ) : ℤ) :=
  ⟨C6_eval_determinism.1 sessionPV transformId 0 5 (Or.inl rfl),
    C6_eval_determinism.2 sessionRand 7 (by norm_num [sessionRand])⟩

theorem foldl_set_getD (args : List (ℕ × List ℚ)) (i : ℕ) :
    ∀ init : List (List ℚ), (∀ a ∈ args, a.1 ≠ i) → init.getD i [] = [0] →
      (args.foldl (fun ds a => ds.set a.1 a.2) init).getD i [] = [0] := by
  induction args with
  | nil => exact fun init _ hinit => hinit
  | cons a t ih =>
    intro init h hinit
    simp only [List.foldl_cons]
    apply ih _ fun b hb => h b (List.mem_cons_of_mem a hb)
    rw [List.getD_eq_getElem?_getD, List.getElem?_set_ne (h a (List.mem_cons_self a t)),
      ← List.getD_eq_getElem?_getD]
    exact hinit

theorem defaultDeltas_unlisted (n : ℕ) (args : List (ℕ × List ℚ)) (i : ℕ)
    (hi : i < n) (h : ∀ a ∈ args, a.1 ≠ i) :
    (defaultDeltas n args).getD i [] = [0] := by
  unfold defaultDeltas
  apply foldl_set_getD args i _ h
  rw [List.getD_eq_getElem _ _ (by simpa using hi)]
  simp

/-- C7: `explore` with a single-parameter transform and the argument
`(axis 0, offsets [-1, 0, 1])` (and a non-random interpolation mode)
returns exactly 3 scores together with the 3 matching parameter vectors
`baseline + offset`; the middle score equals the similarity `eval` returns
at the unmodified baseline transform; and every axis not listed in the
arguments keeps the default offset list `[0]`. -/
theorem C7_explore_grid (s : Session) (T0 : Transform) (p : ℚ) (draws : ℕ → ℕ)
    (d0 : ℕ) (hp : T0.param = [p]) (hi : s.interp = 0 ∨ s.interp = 1) :
    (s.explore T0 [(0, [-1, 0, 1])] draws).1.length = 3 ∧
    (s.explore T0 [(0, [-1, 0, 1])] draws).2 = [[p + -1], [p + 0], [p + 1]] ∧
    (s.explore T0 [(0, [-1, 0, 1])] draws).1.getD 1 0 = (s.eval T0 d0).2 ∧
    (∀ (n : ℕ) (args : List (ℕ × List ℚ)) (i : ℕ), i < n →
      (∀ a ∈ args, a.1 ≠ i) → (defaultDeltas n args).getD i [] = [0]) := by
  obtain ⟨pm, ap⟩ := T0
  simp only [Transform.param] at hp
  subst hp
  have hcombos : indexCombos [3] = [[0], [1], [2]] := by decide
  refine ⟨?_, ?_, ?_, fun n args i hin hargs => defaultDeltas_unlisted n args i hin hargs⟩
  · simp [Session.explore, defaultDeltas, hcombos]
  · simp [Session.explore, defaultDeltas, hcombos, ChainTransform.param]
  · simp only [Session.explore, Session.eval, defaultDeltas, ChainTransform.param,
      ChainTransform.setParam]
    norm_num [hcombos, List.enum]
    exact congrArg Prod.snd (evalT_notrand s _ (draws 1) d0 hi)

theorem C7_witness :
    (sessionPV.explore transformId [(0, [-1, 0, 1])] (fun _ => 0)).1.length = 3 ∧
    (sessionPV.explore transformId [(0, [-1, 0, 1])] (fun _ => 0)).2
      = [[(0 : ℚ) + -1], [0 + 0], [0 + 1]] ∧
    (sessionPV.explore transformId [(0, [-1, 0, 1])] (fun _ => 0)).1.getD 1 0
      = (sessionPV.eval transformId 0).2 ∧
    (∀ (n : ℕ) (args : List (ℕ × List ℚ)) (i : ℕ), i < n →
      (∀ a ∈ args, a.1 ≠ i) → (defaultDeltas n args).getD i [] = [0]) :=
  C7_explore_grid sessionPV transformId 0 (fun _ => 0) 0 rfl (Or.inl rfl)

theorem lookup_append (l1 l2 : List (String × ℚ)) (k : String) :
    (l1 ++ l2).lookup k = firstSome (l1.lookup k) (l2.lookup k) := by
  induction l1 with
  | nil => simp [firstSome]
  | cons a l ih =>
    obtain ⟨k1, v1⟩ := a
    by_cases h : k = k1
    · subst h
      simp [List.lookup, firstSome]
    · simp only [List.cons_append, List.lookup,
        show (k == k1) = false from beq_eq_false_iff_ne.mpr h]
      exact ih

theorem setdefault_lookup (kw : List (String × ℚ)) (k k2 : String) (v : ℚ) :
    (setdefault kw k v).lookup k2 =
      firstSome (kw.lookup k2) (if k2 = k then some v else none) := by
  unfold setdefault
  by_cases hk : (kw.lookup k).isSome
  · rw [if_pos hk]
    by_cases h2 : k2 = k
    · subst h2
      obtain ⟨w, hw⟩ := Option.isSome_iff_exists.mp hk
      rw [hw]
      simp [firstSome]
    · rw [if_neg h2]
      cases hx : kw.lookup k2 <;> simp [firstSome]
  · rw [if_neg hk, lookup_append]
    congr 1
    by_cases h2 : k2 = k
    · subst h2
      simp [List.lookup]
    · simp [List.lookup, show (k2 == k) = false from beq_eq_false_iff_ne.mpr h2, h2]

/-- C8: the method dispatch of `optimize` accepts exactly the names
`powell`, `steepest`, `cg`, `bfgs`, `simplex`; any other name yields the
`ValueError` before any minimizer runs (no `(kind, kwargs)` pair is
produced); and when a name is accepted, each keyword of the resulting
kwargs is the caller's value when the caller supplied one, and the method's
own default tolerance exactly for the method's default keys otherwise. -/
theorem C8_optimize_methods (xt ft gt st : ℚ) (method : String)
    (kw : List (String × ℚ)) :
    ((∃ r, optimize_dispatch xt ft gt st method kw = .ok r) ↔
      method ∈ validMethods) ∧
    (∀ kind kw2, optimize_dispatch xt ft gt st method kw = .ok (kind, kw2) →
      ∀ k, kw2.lookup k = firstSome (kw.lookup k)
        (defaultTable xt ft gt st method k)) := by
  by_cases h1 : method = "powell"
  · subst h1
    refine ⟨by simp [optimize_dispatch, validMethods], fun kind kw2 h k => ?_⟩
    unfold optimize_dispatch at h
    rw [if_pos rfl] at h
    obtain ⟨hk, hkw⟩ := Prod.ext_iff.mp (Except.ok.inj h)
    simp only at hk hkw
    subst hkw
    rw [setdefault_lookup, setdefault_lookup]
    simp only [defaultTable, if_pos (Or.inl rfl)]
    cases kw.lookup k <;>
      by_cases hx : k = "xtol" <;> by_cases hf : k = "ftol" <;>
        simp_all [firstSome]
  by_cases h2 : method = "steepest"
  · subst h2
    refine ⟨by simp [optimize_dispatch, validMethods], fun kind kw2 h k => ?_⟩
    unfold optimize_dispatch at h
    rw [if_neg (by decide), if_pos rfl] at h
    obtain ⟨hk, hkw⟩ := Prod.ext_iff.mp (Except.ok.inj h)
    simp only at hk hkw
    subst hkw
    rw [setdefault_lookup, setdefault_lookup, setdefault_lookup]
    simp only [defaultTable, if_neg (by decide : ¬ (("steepest" : String) = "powell"
      ∨ ("steepest" : String) = "simplex")), if_pos rfl]
    cases kw.lookup k <;>
      by_cases hx : k = "xtol" <;> by_cases hf : k = "ftol" <;>
        by_cases hs : k = "step" <;> simp_all [firstSome]
  by_cases h3 : method = "cg"
  · subst h3
    refine ⟨by simp [optimize_dispatch, validMethods], fun kind kw2 h k => ?_⟩
    unfold optimize_dispatch at h
    rw [if_neg (by decide), if_neg (by decide), if_pos rfl] at h
    obtain ⟨hk, hkw⟩ := Prod.ext_iff.mp (Except.ok.inj h)
    simp only at hk hkw
    subst hkw
    rw [setdefault_lookup]
    simp only [defaultTable, if_neg (by decide : ¬ (("cg" : String) = "powell"
      ∨ ("cg" : String) = "simplex")), if_neg (by decide : ¬ ("cg" : String) = "steepest"),
      if_pos (Or.inl rfl)]
    cases kw.lookup k <;> by_cases hg : k = "gtol" <;> simp_all [firstSome]
  by_cases h4 : method = "bfgs"
  · subst h4
    refine ⟨by simp [optimize_dispatch, validMethods], fun kind kw2 h k => ?_⟩
    unfold optimize_dispatch at h
    rw [if_neg (by decide), if_neg (by decide), if_neg (by decide), if_pos rfl] at h
    obtain ⟨hk, hkw⟩ := Prod.ext_iff.mp (Except.ok.inj h)
    simp only at hk hkw
    subst hkw
    rw [setdefault_lookup]
    simp only [defaultTable, if_neg (by decide : ¬ (("bfgs" : String) = "powell"
      ∨ ("bfgs" : String) = "simplex")), if_neg (by decide : ¬ ("bfgs" : String) = "steepest"),
      if_pos (Or.inr rfl)]
    cases kw.lookup k <;> by_cases hg : k = "gtol" <;> simp_all [firstSome]
  by_cases h5 : method = "simplex"
  · subst h5
    refine ⟨by simp [optimize_dispatch, validMethods], fun kind kw2 h k => ?_⟩
    unfold optimize_dispatch at h
    rw [if_neg (by decide), if_neg (by decide), if_neg (by decide),
      if_neg (by decide), if_pos rfl] at h
    obtain ⟨hk, hkw⟩ := Prod.ext_iff.mp (Except.ok.inj h)
    simp only at hk hkw
    subst hkw
    rw [setdefault_lookup, setdefault_lookup]
    simp only [defaultTable, if_pos (Or.inr rfl)]
    cases kw.lookup k <;>
      by_cases hx : k = "xtol" <;> by_cases hf : k = "ftol" <;>
        simp_all [firstSome]
  · refine ⟨?_, fun kind kw2 h k => ?_⟩
    · simp [optimize_dispatch, validMethods, h1, h2, h3, h4, h5]
    · unfold optimize_dispatch at h
      rw [if_neg h1, if_neg h2, if_neg h3, if_neg h4, if_neg h5] at h
      exact Except.noConfusion h

theorem C8_witness :
    ((∃ r, optimize_dispatch 1 2 3 4 "powell" [("xtol", 9)] = .ok r) ↔
      ("powell" : String) ∈ validMethods) ∧
    (∀ kind kw2, optimize_dispatch 1 2 3 4 "powell" [("xtol", 9)] = .ok (kind, kw2) →
      ∀ k, kw2.lookup k = firstSome (List.lookup k [("xtol", (9 : ℚ))])
        (defaultTable 1 2 3 4 "powell" k)) :=
  C8_optimize_methods 1 2 3 4 "powell" [("xtol", 9)]

/-- C10: for each of the names `pv`, `tri` and `rand`, storing the name's
code with the `interp` setter and mapping the stored code back through the
getter returns the same name, and the three codes are pairwise distinct
(the name-to-code mapping is injective). -/
theorem C10_interp_roundtrip :
    (_set_interp "pv" = some 0 ∧ _get_interp 0 = some "pv") ∧
    (_set_interp "tri" = some 1 ∧ _get_interp 1 = some "tri") ∧
    (_set_interp "rand" = some (-1) ∧ _get_interp (-1) = some "rand") ∧
    ((0 : ℤ) ≠ 1 ∧ (0 : ℤ) ≠ -1 ∧ (1 : ℤ) ≠ -1) := by
  refine ⟨⟨?_, ?_⟩, ⟨?_, ?_⟩, ⟨?_, ?_⟩, by norm_num⟩ <;> rfl

end HistReg
